import Mathlib

/-!
Verification development for the unified-diff patch parser
(src/patch/parse.rs).  The parser is embedded shallowly over byte
sequences (`List Nat`); the generic text abstraction, the line cursor and
the data-model helpers live outside src/ and are modelled from the spec
where so noted.
-/

set_option maxHeartbeats 1000000

/-- Single-quote character as a string, used to assemble error messages. -/
def sqch : String := ⟨[Char.ofNat 39]⟩

def msgUnexpectedEOF : String := "unexpected EOF"
def msgUnableParseFilename : String := "unable to parse filename"
def msgFilenameUnterminated : String := "filename unterminated"
def msgInvalidUnquotedChar : String := "invalid char in unquoted filename"
def msgExpectedEscapedChar : String := "expected escaped character"
def msgInvalidEscapedChar : String := "invalid escaped character"
def msgInvalidUnescapedChar : String := "invalid unescaped character"
def msgHunksOrder : String := "Hunks not in order or overlap"
def msgHunkMismatch : String := "Hunk header does not match hunk"
def msgUnableParseHunkHeader : String := "unable to parse hunk header"
def msgHunkHeaderUnterminated : String := "hunk header unterminated"
def msgCantParseRange : String := "can" ++ sqch ++ "t parse range"
def msgExpectedEndOfHunk : String := "expected end of hunk"
def msgNoMoreDeleted : String := "expected no more deleted lines"
def msgNoMoreInserted : String := "expected no more inserted lines"
def msgUnexpectedNoNewline : String :=
  "unexpected " ++ sqch ++ "No newline at end of file" ++ sqch ++ " line"
def msgMissingNewline : String := "missing newline"
def msgUnexpectedLine : String := "unexpected line in hunk body"
/-- Modelling artifact: message of the provably unreachable fuel-exhaustion
branch of the hunk-collection loop (see `hunksLoopF`). -/
def msgFuel : String := "internal: fuel exhausted"
/-- Modelling artifact: the panic of the from_utf8 unwrap in
convert_cow_to_str, modelled as an error distinct from every parser
error. -/
def msgUtf8Panic : String := "panic: from_utf8 failed"

/-- Byte sequences: the parser is embedded over lists of byte values. -/
abbrev Bytes := List Nat

/-- ASCII encoding of a string, used to write concrete inputs readably. -/
def asciiBytes (s : String) : Bytes := s.data.map Char.toNat

-- Byte-level literals appearing in parse.rs, written out numerically.
/-- Bytes of the old-filename line marker: three dashes and a space. -/
def hdrOldPfx : Bytes := [45, 45, 45, 32]
/-- Bytes of the new-filename line marker: three pluses and a space. -/
def hdrNewPfx : Bytes := [43, 43, 43, 32]
/-- Bytes of the hunk-header opener: two at-signs and a space. -/
def atatSp : Bytes := [64, 64, 32]
/-- Bytes of the hunk-header terminator: a space and two at-signs. -/
def spAtat : Bytes := [32, 64, 64]
/-- Single space byte. -/
def SP : Bytes := [32]
/-- Single tab byte. -/
def TAB : Bytes := [9]
/-- Single newline byte. -/
def NL : Bytes := [10]
/-- Single dash byte. -/
def DASH : Bytes := [45]
/-- Single plus byte. -/
def PLUS : Bytes := [43]
/-- Single comma byte. -/
def COMMA : Bytes := [44]
/-- Single double-quote byte. -/
def QUOTE : Bytes := [34]
/-- Single at-sign byte. -/
def ATB : Bytes := [64]

/-- Modelled from the spec (patch/mod.rs is not under src/): the literal
marker line text, a backslash followed by a space and the words
No newline at end of file. -/
def NO_NEWLINE_AT_EOF : Bytes :=
  [92, 32, 78, 111, 32, 110, 101, 119, 108, 105, 110, 101, 32,
   97, 116, 32, 101, 110, 100, 32, 111, 102, 32, 102, 105, 108, 101]

/-- Modelled from the spec (patch/mod.rs is not under src/): the
escaped-chars set, the bytes whose escape forms are n, t, 0, r, the double
quote and the backslash: newline, tab, NUL, carriage return, quote,
backslash. -/
def ESCAPED_CHARS_BYTES : Bytes := [10, 9, 0, 13, 34, 92]

-- Text abstraction (utils.rs is not under src/), modelled from the spec.

/-- Modelled from the spec: strip_prefix over bytes, returning the tail
after the literal when the literal is a leading segment. -/
def stripPfx (p s : Bytes) : Option Bytes :=
  if p.isPrefixOf s then some (s.drop p.length) else none

/-- Modelled from the spec: strip_suffix over bytes, returning the initial
segment before the literal when the literal is a trailing segment. -/
def stripSfx (p s : Bytes) : Option Bytes :=
  if p.isSuffixOf s then some (s.take (s.length - p.length)) else none

/-- Modelled from the spec: starts_with over bytes. -/
def starts_with (p s : Bytes) : Bool := p.isPrefixOf s

/-- Modelled from the spec: split before the first occurrence of the
delimiter, excluding the delimiter from either half; none if absent. -/
def split_at_exclusive (d : Bytes) : Bytes → Option (Bytes × Bytes)
  | [] => if d = [] then some ([], []) else none
  | c :: rest =>
    if d.isPrefixOf (c :: rest) then some ([], (c :: rest).drop d.length)
    else (split_at_exclusive d rest).map fun p => (c :: p.1, p.2)

/-- Decimal digit test on a byte. -/
def isDigitB (b : Nat) : Bool := decide (48 ≤ b ∧ b ≤ 57)

/-- Modelled from the spec: parsing of an unsigned decimal integer; a
malformed (empty or non-digit) numeral yields none. -/
def parseNatB (s : Bytes) : Option Nat :=
  if s ≠ [] ∧ s.all isDigitB then
    some (s.foldl (fun acc b => acc * 10 + (b - 48)) 0)
  else none

/-- Modelled from the spec: the line iterator; accumulator holds the bytes
of the current line in reverse. Each yielded line keeps its trailing
newline; a final partial line is yielded without one. -/
def splitLinesAux (acc : Bytes) : Bytes → List Bytes
  | [] => if acc = [] then [] else [acc.reverse]
  | b :: rest =>
    if b = 10 then (acc.reverse ++ [10]) :: splitLinesAux [] rest
    else splitLinesAux (b :: acc) rest

/-- Modelled from the spec: split an input buffer into physical lines. -/
def splitLines (bs : Bytes) : List Bytes := splitLinesAux [] bs

-- Data model (patch/mod.rs is not under src/), modelled from the spec.

/-- Modelled from the spec: a hunk-body line tagged context, delete or
insert, holding the bytes of the line text. -/
inductive Line where
  | Context (t : Bytes)
  | Delete (t : Bytes)
  | Insert (t : Bytes)
deriving DecidableEq, Repr

/-- Modelled from the spec: a line range with 1-based start and length. -/
structure HunkRange where
  start : Nat
  len : Nat
deriving DecidableEq, Repr

/-- Modelled from the spec: the exclusive end of a range, start plus len. -/
def HunkRange.end' (r : HunkRange) : Nat := r.start + r.len

/-- Modelled from the spec: a hunk with its two ranges, optional function
context and classified lines. -/
structure Hunk where
  old_range : HunkRange
  new_range : HunkRange
  function_context : Option Bytes
  lines : List Line
deriving DecidableEq, Repr

/-- Modelled from the spec: a parsed patch. -/
structure Patch where
  old_filename : Bytes
  new_filename : Bytes
  hunks : List Hunk
deriving DecidableEq, Repr

/-- Counts a line toward the old file: context and delete lines. -/
def isOldLine : Line → Bool
  | .Context _ => true
  | .Delete _ => true
  | .Insert _ => false

/-- Counts a line toward the new file: context and insert lines. -/
def isNewLine : Line → Bool
  | .Context _ => true
  | .Insert _ => true
  | .Delete _ => false

/-- Modelled from the spec (patch/mod.rs is not under src/): the pair of
old and new line counts of a hunk body. -/
def hunk_lines_count (lns : List Line) : Nat × Nat :=
  (lns.countP isOldLine, lns.countP isNewLine)

-- The parser proper, translated from src/patch/parse.rs.

/-- From parse.rs: skip lines until one starting with the old-filename
marker is found. -/
def skip_header_preamble : List Bytes → List Bytes
  | [] => []
  | l :: rest =>
    if starts_with hdrOldPfx l then l :: rest else skip_header_preamble rest

/-- From parse.rs: test for a quoted filename, stripping the surrounding
double quotes. -/
def is_quoted (s : Bytes) : Option Bytes :=
  match stripPfx QUOTE s with
  | none => none
  | some s1 => stripSfx QUOTE s1

/-- From parse.rs: an unquoted filename must not contain any byte of the
escaped-chars set. -/
def unescaped_filename (filename : Bytes) : Except String Bytes :=
  if filename.any (fun b => ESCAPED_CHARS_BYTES.contains b) then
    .error msgInvalidUnquotedChar
  else .ok filename

/-- From parse.rs: decoding of a quoted filename.  Note: on a recognised
escape the source pushes `c`, the backslash byte itself, not the byte the
escape denotes; this translation reproduces that behaviour faithfully. -/
def escaped_filename : Bytes → Except String Bytes
  | [] => .ok []
  | c :: rest =>
    if c = 92 then
      match rest with
      | [] => .error msgExpectedEscapedChar
      | d :: rest2 =>
        if d = 110 ∨ d = 116 ∨ d = 48 ∨ d = 114 ∨ d = 34 ∨ d = 92 then
          match escaped_filename rest2 with
          | .error e => .error e
          | .ok tl => .ok (c :: tl)
        else .error msgInvalidEscapedChar
    else if ESCAPED_CHARS_BYTES.contains c then .error msgInvalidUnescapedChar
    else
      match escaped_filename rest with
      | .error e => .error e
      | .ok tl => .ok (c :: tl)

/-- From parse.rs: extract one filename from a header line carrying the
given required marker. -/
def parse_filename (pfx : Bytes) (line : Bytes) : Except String Bytes :=
  match stripPfx pfx line with
  | none => .error msgUnableParseFilename
  | some line1 =>
    match (match split_at_exclusive TAB line1 with
           | some (fn, _) => some fn
           | none => (split_at_exclusive NL line1).map Prod.fst) with
    | none => .error msgFilenameUnterminated
    | some filename =>
      match is_quoted filename with
      | some quoted => escaped_filename quoted
      | none => unescaped_filename filename

/-- From parse.rs: locate the two filename lines, skipping the preamble;
cursor exhaustion surfaces as the unexpected-EOF error. -/
def patch_header (ls : List Bytes) :
    Except String ((Bytes × Bytes) × List Bytes) :=
  match skip_header_preamble ls with
  | [] => .error msgUnexpectedEOF
  | l1 :: rest1 =>
    match parse_filename hdrOldPfx l1 with
    | .error e => .error e
    | .ok f1 =>
      match rest1 with
      | [] => .error msgUnexpectedEOF
      | l2 :: rest2 =>
        match parse_filename hdrNewPfx l2 with
        | .error e => .error e
        | .ok f2 => .ok ((f1, f2), rest2)

/-- From parse.rs: parse one numeric range text, start with an optional
comma-separated length defaulting to 1. -/
def range (s : Bytes) : Except String HunkRange :=
  match split_at_exclusive COMMA s with
  | some (startS, lenS) =>
    match parseNatB startS with
    | none => .error msgCantParseRange
    | some st =>
      match parseNatB lenS with
      | none => .error msgCantParseRange
      | some ln => .ok ⟨st, ln⟩
  | none =>
    match parseNatB s with
    | none => .error msgCantParseRange
    | some st => .ok ⟨st, 1⟩

/-- From parse.rs: parse a hunk-header line into the two ranges and the
optional function context. -/
def hunk_header (input : Bytes) :
    Except String (HunkRange × HunkRange × Option Bytes) :=
  match stripPfx atatSp input with
  | none => .error msgUnableParseHunkHeader
  | some input1 =>
    match split_at_exclusive spAtat input1 with
    | none => .error msgHunkHeaderUnterminated
    | some (ranges, fcRaw) =>
      match split_at_exclusive SP ranges with
      | none => .error msgUnableParseHunkHeader
      | some (range1s, range2s) =>
        match stripPfx DASH range1s with
        | none => .error msgUnableParseHunkHeader
        | some r1s =>
          match range r1s with
          | .error e => .error e
          | .ok range1 =>
            match stripPfx PLUS range2s with
            | none => .error msgUnableParseHunkHeader
            | some r2s =>
              match range r2s with
              | .error e => .error e
              | .ok range2 => .ok (range1, range2, stripPfx SP fcRaw)

/-- From parse.rs: strip the trailing newline of a line, erroring when it
has none. -/
def strip_newline (s : Bytes) : Except String Bytes :=
  match stripSfx NL s with
  | some stripped => .ok stripped
  | none => .error msgMissingNewline

/-- From parse.rs: classification of one non-boundary hunk-body line (the
body of the loop in hunk_lines, factored out).  The accumulator holds the
emitted lines most recent first (the source pushes to the back of a vector
and pops from the back).  The three booleans are the per-kind no-newline
flags; the result is the updated accumulator and flags. -/
def hunk_lines_step (acc : List Line) (nc nd ni : Bool) (l : Bytes) :
    Except String (List Line × Bool × Bool × Bool) :=
  if nc then .error msgExpectedEndOfHunk
  else
    match stripPfx SP l with
    | some t => .ok (Line.Context t :: acc, nc, nd, ni)
    | none =>
      if starts_with NL l then .ok (Line.Context l :: acc, nc, nd, ni)
      else
        match stripPfx DASH l with
        | some t =>
          if nd then .error msgNoMoreDeleted
          else .ok (Line.Delete t :: acc, nc, nd, ni)
        | none =>
          match stripPfx PLUS l with
          | some t =>
            if ni then .error msgNoMoreInserted
            else .ok (Line.Insert t :: acc, nc, nd, ni)
          | none =>
            if starts_with NO_NEWLINE_AT_EOF l then
              match acc with
              | [] => .error msgUnexpectedNoNewline
              | Line.Context t :: acc' =>
                match strip_newline t with
                | .error e => .error e
                | .ok t' => .ok (Line.Context t' :: acc', true, nd, ni)
              | Line.Delete t :: acc' =>
                match strip_newline t with
                | .error e => .error e
                | .ok t' => .ok (Line.Delete t' :: acc', nc, true, ni)
              | Line.Insert t :: acc' =>
                match strip_newline t with
                | .error e => .error e
                | .ok t' => .ok (Line.Insert t' :: acc', nc, nd, true)
            else .error msgUnexpectedLine

/-- From parse.rs: the hunk-body classification loop; stops at the next
hunk boundary or end of input, restoring the accumulated lines to
emission order. -/
def hunk_lines_loop (acc : List Line) (nc nd ni : Bool) :
    List Bytes → Except String (List Line × List Bytes)
  | [] => .ok (acc.reverse, [])
  | l :: rest =>
    if starts_with ATB l then .ok (acc.reverse, l :: rest)
    else
      match hunk_lines_step acc nc nd ni l with
      | .error e => .error e
      | .ok (acc', nc', nd', ni') => hunk_lines_loop acc' nc' nd' ni' rest

/-- From parse.rs: parse a hunk body starting with empty accumulator and
cleared flags, returning the classified lines and the unconsumed lines. -/
def hunk_lines (ls : List Bytes) : Except String (List Line × List Bytes) :=
  hunk_lines_loop [] false false false ls

/-- From parse.rs: parse one hunk, a header line followed by a body, then
check the body line counts against the declared range lengths. -/
def hunk : List Bytes → Except String (Hunk × List Bytes)
  | [] => .error msgUnexpectedEOF
  | hl :: rest =>
    match hunk_header hl with
    | .error e => .error e
    | .ok (range1, range2, fc) =>
      match hunk_lines rest with
      | .error e => .error e
      | .ok (lns, rest') =>
        if (hunk_lines_count lns).1 ≠ range1.len ∨
           (hunk_lines_count lns).2 ≠ range2.len then
          .error msgHunkMismatch
        else .ok (⟨range1, range2, fc, lns⟩, rest')

/-- From parse.rs: the windows-of-two check that hunks are strictly
ordered and non-overlapping in both coordinate spaces. -/
def verify_hunks_in_order : List Hunk → Bool
  | h1 :: h2 :: rest =>
    if h1.old_range.end' ≥ h2.old_range.start ∨
       h1.new_range.end' ≥ h2.new_range.start then false
    else verify_hunks_in_order (h2 :: rest)
  | _ => true

/-- From parse.rs: the hunk-collection loop, which runs while lines
remain.  The loop is modelled with explicit fuel bounded by the number of
remaining lines; every iteration consumes at least one line, so the
fuel-exhaustion branch is unreachable (`hunksLoopF_fuel_irrel`). -/
def hunksLoopF : Nat → List Bytes → Except String (List Hunk)
  | _, [] => .ok []
  | 0, _ :: _ => .error msgFuel
  | fuel + 1, l :: rest =>
    match hunk (l :: rest) with
    | .error e => .error e
    | .ok (hk, rest') =>
      match hunksLoopF fuel rest' with
      | .error e => .error e
      | .ok hs => .ok (hk :: hs)

/-- From parse.rs: collect all hunks of the input. -/
def hunksLoop (ls : List Bytes) : Except String (List Hunk) :=
  hunksLoopF ls.length ls

/-- From parse.rs: collect all hunks, then validate global ordering and
non-overlap. -/
def hunks (ls : List Bytes) : Except String (List Hunk) :=
  match hunksLoop ls with
  | .error e => .error e
  | .ok hs =>
    if verify_hunks_in_order hs then .ok hs else .error msgHunksOrder

-- UTF-8 well-formedness, used to model convert_cow_to_str.

/-- Shape of a multi-byte UTF-8 sequence headed by the given byte: the
admissible range of the second byte and the count of further plain
continuation bytes; none when the byte cannot head a sequence. -/
def utf8CharLen (b : Nat) : Option (Nat × Nat × Nat) :=
  if 0xC2 ≤ b ∧ b ≤ 0xDF then some (0x80, 0xBF, 0)
  else if b = 0xE0 then some (0xA0, 0xBF, 1)
  else if (0xE1 ≤ b ∧ b ≤ 0xEC) ∨ b = 0xEE ∨ b = 0xEF then some (0x80, 0xBF, 1)
  else if b = 0xED then some (0x80, 0x9F, 1)
  else if b = 0xF0 then some (0x90, 0xBF, 2)
  else if 0xF1 ≤ b ∧ b ≤ 0xF3 then some (0x80, 0xBF, 2)
  else if b = 0xF4 then some (0x80, 0x8F, 2)
  else none

/-- One transition of the UTF-8 acceptance automaton: the state is the
count of still-expected continuation bytes together with the admissible
range of the next one; (0, 0, 0) is the accepting boundary state. -/
def utf8Step : Nat × Nat × Nat → Nat → Option (Nat × Nat × Nat)
  | (0, _, _), b =>
    if b ≤ 0x7F then some (0, 0, 0)
    else
      match utf8CharLen b with
      | none => none
      | some (lo, hi, m) => some (m + 1, lo, hi)
  | (k + 1, lo, hi), b =>
    if lo ≤ b ∧ b ≤ hi then
      if k = 0 then some (0, 0, 0) else some (k, 0x80, 0xBF)
    else none

/-- Run of the UTF-8 automaton over a byte sequence. -/
def utf8Run : Nat × Nat × Nat → Bytes → Option (Nat × Nat × Nat)
  | st, [] => some st
  | st, b :: rest =>
    match utf8Step st b with
    | none => none
    | some st' => utf8Run st' rest

/-- UTF-8 well-formedness of a byte sequence (surrogates and overlong
forms excluded), the validity notion behind str::from_utf8: the automaton
consumes every byte and ends on a character boundary. -/
def Utf8Valid (bs : Bytes) : Bool :=
  decide (utf8Run (0, 0, 0) bs = some (0, 0, 0))

/-- States reachable by the UTF-8 automaton: the accepting boundary state,
or a mid-character state whose admissible range sits at or above 0x80. -/
def goodSt (st : Nat × Nat × Nat) : Prop :=
  st = (0, 0, 0) ∨ ∃ k lo hi, st = (k + 1, lo, hi) ∧ 0x80 ≤ lo

/-- From parse.rs: convert_cow_to_str re-tags filename bytes as text.  The
source unwraps str::from_utf8; the panic on ill-formed bytes is modelled
as an error distinct from every parser error. -/
def convert_cow_to_str (b : Bytes) : Except String Bytes :=
  if Utf8Valid b then .ok b else .error msgUtf8Panic

/-- From parse.rs: the string entry point.  It runs the same generic
header and hunk parsers and re-tags the filenames as text. -/
def parse (input : Bytes) : Except String Patch :=
  match patch_header (splitLines input) with
  | .error e => .error e
  | .ok ((f1, f2), rest) =>
    match hunks rest with
    | .error e => .error e
    | .ok hs =>
      match convert_cow_to_str f1 with
      | .error e => .error e
      | .ok g1 =>
        match convert_cow_to_str f2 with
        | .error e => .error e
        | .ok g2 => .ok ⟨g1, g2, hs⟩

/-- From parse.rs: the byte entry point. -/
def parse_bytes (input : Bytes) : Except String Patch :=
  match patch_header (splitLines input) with
  | .error e => .error e
  | .ok ((f1, f2), rest) =>
    match hunks rest with
    | .error e => .error e
    | .ok hs => .ok ⟨f1, f2, hs⟩

/-- Follows the spec's words on the function context, for comparison with
`hunk_header`: after the opener is stripped and the remainder split at the
terminator, the text up to the end of the line (the line's terminating
newline itself excluded) is the context, minus one leading space if
present; the context is omitted when that text is absent.  Yields none
when the line lacks the opener or the terminator. -/
def specFnCtx (line : Bytes) : Option (Option Bytes) :=
  match stripPfx atatSp line with
  | none => none
  | some input1 =>
    match split_at_exclusive spAtat input1 with
    | none => none
    | some (_, fcRaw) =>
      let t := (stripSfx NL fcRaw).getD fcRaw
      some (if t = [] then none else some ((stripPfx SP t).getD t))

-- Concrete inputs used by witnesses and counterexamples.

/-- Hunk-header line with text after the terminator not led by a space. -/
def c2line : Bytes := asciiBytes ("@@ -1 +1 @@x\n")
/-- Hunk-header line with a space-led function context. -/
def c2line' : Bytes := asciiBytes ("@@ -1 +1 @@ f\n")
/-- Hunk-header line with comma-less ranges. -/
def c7line : Bytes := asciiBytes ("@@ -1 +1 @@\n")
/-- Header whose new-filename line is missing. -/
def c8input : Bytes := asciiBytes ("--- a\n")
/-- Well-formed one-hunk patch input. -/
def c9input : Bytes := asciiBytes ("--- a\n+++ b\n@@ -1,2 +1,2 @@\n-foo\n+bar\n context\n")
/-- Lines of a well-formed one-hunk body plus following hunk header. -/
def c3lines : List Bytes := splitLines (asciiBytes ("@@ -1,1 +1,1 @@\n-a\n+b\n"))
/-- The marker line, newline-terminated. -/
def markerLine : Bytes := NO_NEWLINE_AT_EOF ++ [10]

deriving instance DecidableEq for Except

/-- Adjacent-pair ordering between hunks demanded by the spec: the earlier
hunk ends strictly before the later one starts, in both coordinate
spaces. -/
abbrev hunkOrd (h1 h2 : Hunk) : Prop :=
  h1.old_range.end' < h2.old_range.start ∧ h1.new_range.end' < h2.new_range.start

/-- A preamble line, skipped by header parsing. -/
def c8pre : List Bytes := [asciiBytes ("diff x y\n")]

-- Definitional unfolding equations at constructor shapes, used to step
-- the parser in proofs.

theorem hunk_cons (hl : Bytes) (tl : List Bytes) :
    hunk (hl :: tl) = match hunk_header hl with
      | .error e => .error e
      | .ok (r1, r2, fc) =>
        match hunk_lines tl with
        | .error e => .error e
        | .ok (lns, rest') =>
          if (hunk_lines_count lns).1 ≠ r1.len ∨
             (hunk_lines_count lns).2 ≠ r2.len then
            .error msgHunkMismatch
          else .ok (⟨r1, r2, fc, lns⟩, rest') := rfl

theorem hunk_lines_loop_nil (acc : List Line) (nc nd ni : Bool) :
    hunk_lines_loop acc nc nd ni [] = .ok (acc.reverse, []) := rfl

theorem hunk_lines_loop_cons (acc : List Line) (nc nd ni : Bool) (l : Bytes)
    (rest : List Bytes) :
    hunk_lines_loop acc nc nd ni (l :: rest) =
      if starts_with ATB l then .ok (acc.reverse, l :: rest)
      else
        match hunk_lines_step acc nc nd ni l with
        | .error e => .error e
        | .ok (acc', nc', nd', ni') => hunk_lines_loop acc' nc' nd' ni' rest := rfl

theorem hunksLoopF_succ (fuel : Nat) (l : Bytes) (rest : List Bytes) :
    hunksLoopF (fuel + 1) (l :: rest) =
      match hunk (l :: rest) with
      | .error e => .error e
      | .ok (hk, rest') =>
        match hunksLoopF fuel rest' with
        | .error e => .error e
        | .ok hs => .ok (hk :: hs) := rfl

theorem split_at_exclusive_cons (d : Bytes) (c : Nat) (rest : Bytes) :
    split_at_exclusive d (c :: rest) =
      if d.isPrefixOf (c :: rest) then some ([], (c :: rest).drop d.length)
      else (split_at_exclusive d rest).map fun p => (c :: p.1, p.2) := rfl

theorem verify_cons_cons (h1 h2 : Hunk) (rest : List Hunk) :
    verify_hunks_in_order (h1 :: h2 :: rest) =
      if h1.old_range.end' ≥ h2.old_range.start ∨
         h1.new_range.end' ≥ h2.new_range.start then false
      else verify_hunks_in_order (h2 :: rest) := rfl

-- Characterizations of the text operations.

theorem stripPfx_eq {p s t : Bytes} : stripPfx p s = some t ↔ s = p ++ t := by
  unfold stripPfx
  split
  · rename_i hp
    rw [List.isPrefixOf_iff_prefix, List.prefix_iff_eq_append] at hp
    constructor
    · intro h
      injection h with h
      rw [← h]
      exact hp.symm
    · intro h
      subst h
      rw [List.drop_left]
  · rename_i hp
    rw [List.isPrefixOf_iff_prefix] at hp
    constructor
    · intro h; cases h
    · intro h
      exact absurd ⟨t, h.symm⟩ hp

theorem stripSfx_eq {p s t : Bytes} : stripSfx p s = some t ↔ s = t ++ p := by
  unfold stripSfx
  split
  · rename_i hp
    rw [List.isSuffixOf_iff_suffix] at hp
    obtain ⟨u, hu⟩ := hp
    subst hu
    constructor
    · intro h
      injection h with h
      rw [show (u ++ p).length - p.length = u.length by simp, List.take_left] at h
      rw [h]
    · intro h
      have h2 : u = t := by
        have h3 := congrArg (fun l => List.take (l.length - p.length) l) h
        simpa [List.take_left] using h3
      subst h2
      rw [show (u ++ p).length - p.length = u.length by simp, List.take_left]
  · rename_i hp
    rw [List.isSuffixOf_iff_suffix] at hp
    constructor
    · intro h; cases h
    · intro h
      exact absurd ⟨t, h.symm⟩ hp

theorem starts_with_iff {p s : Bytes} : starts_with p s = true ↔ ∃ t, s = p ++ t := by
  unfold starts_with
  rw [List.isPrefixOf_iff_prefix]
  constructor
  · rintro ⟨t, ht⟩; exact ⟨t, ht.symm⟩
  · rintro ⟨t, ht⟩; exact ⟨t, ht.symm⟩

theorem split_at_exclusive_eq {d : Bytes} :
    ∀ (s a b : Bytes), split_at_exclusive d s = some (a, b) → s = a ++ d ++ b := by
  intro s
  induction s with
  | nil =>
    intro a b h
    unfold split_at_exclusive at h
    split at h
    · rename_i hd
      simp only [Option.some.injEq, Prod.mk.injEq] at h
      obtain ⟨h1, h2⟩ := h
      subst h1
      subst h2
      simp [hd]
    · cases h
  | cons c rest ih =>
    intro a b h
    unfold split_at_exclusive at h
    split at h
    · rename_i hp
      rw [List.isPrefixOf_iff_prefix, List.prefix_iff_eq_append] at hp
      simp only [Option.some.injEq, Prod.mk.injEq] at h
      obtain ⟨h1, h2⟩ := h
      subst h1
      subst h2
      simpa using hp.symm
    · cases hsp : split_at_exclusive d rest with
      | none => rw [hsp] at h; cases h
      | some pr =>
        obtain ⟨a1, b1⟩ := pr
        rw [hsp] at h
        simp only [Option.map_some', Option.some.injEq, Prod.mk.injEq] at h
        obtain ⟨h1, h2⟩ := h
        subst h1
        subst h2
        have h3 := ih a1 b1 hsp
        simp [h3]

theorem skip_header_preamble_mem :
    ∀ (ls : List Bytes), ∀ l ∈ skip_header_preamble ls, l ∈ ls := by
  intro ls
  induction ls with
  | nil => intro l h; simp [skip_header_preamble] at h
  | cons a rest ih =>
    intro l h
    unfold skip_header_preamble at h
    split at h
    · exact h
    · exact List.mem_cons_of_mem a (ih l h)

theorem hunk_lines_loop_rest_le :
    ∀ (ls : List Bytes) (acc : List Line) (nc nd ni : Bool) (lns : List Line)
      (rest : List Bytes),
      hunk_lines_loop acc nc nd ni ls = .ok (lns, rest) →
      rest.length ≤ ls.length := by
  intro ls
  induction ls with
  | nil =>
    intro acc nc nd ni lns rest h
    unfold hunk_lines_loop at h
    simp only [Except.ok.injEq, Prod.mk.injEq] at h
    obtain ⟨h1, h2⟩ := h
    subst h2
    exact Nat.le_refl 0
  | cons l tl ih =>
    intro acc nc nd ni lns rest h
    unfold hunk_lines_loop at h
    split at h
    · simp only [Except.ok.injEq, Prod.mk.injEq] at h
      obtain ⟨h1, h2⟩ := h
      subst h2
      exact Nat.le_refl _
    · cases hs : hunk_lines_step acc nc nd ni l with
      | error e => rw [hs] at h; cases h
      | ok q =>
        obtain ⟨acc', nc', nd', ni'⟩ := q
        rw [hs] at h
        exact Nat.le_succ_of_le (ih _ _ _ _ _ _ h)

theorem hunk_rest_lt {ls : List Bytes} {hk : Hunk} {rest : List Bytes}
    (h : hunk ls = .ok (hk, rest)) : rest.length < ls.length := by
  cases ls with
  | nil => cases h
  | cons hl tl =>
    rw [hunk_cons] at h
    split at h
    · cases h
    · split at h
      · cases h
      · rename_i lns rest' hb
        split at h
        · cases h
        · simp only [Except.ok.injEq, Prod.mk.injEq] at h
          obtain ⟨h1, h2⟩ := h
          subst h2
          unfold hunk_lines at hb
          have h3 := hunk_lines_loop_rest_le tl [] false false false lns rest' hb
          simp only [List.length_cons]
          exact Nat.lt_succ_of_le h3

theorem hunksLoopF_succ_ok (fuel : Nat) (l : Bytes) (rest : List Bytes)
    (hk : Hunk) (rest' : List Bytes) (h : hunk (l :: rest) = .ok (hk, rest')) :
    hunksLoopF (fuel + 1) (l :: rest) =
      match hunksLoopF fuel rest' with
      | .error e => .error e
      | .ok hs => .ok (hk :: hs) := by
  rw [hunksLoopF_succ, h]

theorem hunksLoopF_succ_err (fuel : Nat) (l : Bytes) (rest : List Bytes)
    (e : String) (h : hunk (l :: rest) = .error e) :
    hunksLoopF (fuel + 1) (l :: rest) = .error e := by
  rw [hunksLoopF_succ, h]

theorem hunksLoopF_fuel_irrel :
    ∀ (f1 : Nat) (ls : List Bytes) (f2 : Nat), ls.length ≤ f1 → ls.length ≤ f2 →
      hunksLoopF f1 ls = hunksLoopF f2 ls := by
  intro f1
  induction f1 with
  | zero =>
    intro ls f2 h1 h2
    cases ls with
    | nil => cases f2 <;> rfl
    | cons l rest => simp at h1
  | succ n ih =>
    intro ls f2 h1 h2
    cases ls with
    | nil => cases f2 <;> rfl
    | cons l rest =>
      cases f2 with
      | zero => simp at h2
      | succ m =>
        cases hk : hunk (l :: rest) with
        | error e => rw [hunksLoopF_succ_err n l rest e hk, hunksLoopF_succ_err m l rest e hk]
        | ok pr =>
          obtain ⟨hh, rest'⟩ := pr
          rw [hunksLoopF_succ_ok n l rest hh rest' hk, hunksLoopF_succ_ok m l rest hh rest' hk]
          have hlt := hunk_rest_lt hk
          simp only [List.length_cons] at h1 h2 hlt
          rw [ih rest' m (by omega) (by omega)]

theorem verify_iff_chain :
    ∀ hs : List Hunk, verify_hunks_in_order hs = true ↔ List.Chain' hunkOrd hs := by
  intro hs
  induction hs with
  | nil => simp [verify_hunks_in_order]
  | cons h1 tl ih =>
    cases tl with
    | nil => simp [verify_hunks_in_order]
    | cons h2 rest =>
      rw [verify_cons_cons, List.chain'_cons]
      by_cases hc : h1.old_range.end' ≥ h2.old_range.start ∨
          h1.new_range.end' ≥ h2.new_range.start
      · rw [if_pos hc]
        simp only [Bool.false_eq_true, false_iff]
        rintro ⟨⟨ho, hn⟩, _⟩
        rcases hc with hc | hc
        · omega
        · omega
      · rw [if_neg hc]
        rw [ih]
        push_neg at hc
        constructor
        · intro hch
          exact ⟨⟨hc.1, hc.2⟩, hch⟩
        · intro hch
          exact hch.2

-- Single-byte prefix facts used to drive the body classifier.

theorem stripPfx_single (b c : Nat) (u : Bytes) :
    stripPfx [b] (c :: u) = if b = c then some u else none := by
  by_cases h : b = c
  · subst h
    rw [if_pos rfl]
    exact stripPfx_eq.mpr rfl
  · rw [if_neg h]
    unfold stripPfx
    rw [if_neg]
    intro hpre
    rw [List.isPrefixOf_iff_prefix] at hpre
    obtain ⟨t, ht⟩ := hpre
    injection ht with h1 h2
    exact h h1

theorem stripPfx_single_nil (b : Nat) : stripPfx [b] [] = none := rfl

theorem starts_with_single (b c : Nat) (u : Bytes) :
    starts_with [b] (c :: u) = decide (b = c) := by
  by_cases h : b = c
  · subst h
    have hs : starts_with [b] (b :: u) = true := starts_with_iff.mpr ⟨u, rfl⟩
    simp [hs]
  · simp only [decide_eq_false h]
    unfold starts_with
    rw [Bool.eq_false_iff]
    intro hpre
    rw [List.isPrefixOf_iff_prefix] at hpre
    obtain ⟨t, ht⟩ := hpre
    injection ht with h1 h2
    exact h h1

theorem starts_with_single_nil (b : Nat) : starts_with [b] [] = false := rfl

theorem marker_head (l : Bytes) (hm : starts_with NO_NEWLINE_AT_EOF l = true) :
    ∃ u, l = 92 :: u := by
  obtain ⟨u, hu⟩ := starts_with_iff.mp hm
  exact ⟨_, by rw [hu]; rfl⟩

theorem marker_not_boundary (l : Bytes)
    (hm : starts_with NO_NEWLINE_AT_EOF l = true) : starts_with ATB l = false := by
  obtain ⟨u, hu⟩ := marker_head l hm
  subst hu
  rw [show (ATB : Bytes) = [64] from rfl, starts_with_single]
  simp

/-- The body classifier on a line opening with the no-newline marker. -/
theorem step_marker (acc : List Line) (nd ni : Bool) (l : Bytes)
    (hm : starts_with NO_NEWLINE_AT_EOF l = true) :
    hunk_lines_step acc false nd ni l =
      match acc with
      | [] => .error msgUnexpectedNoNewline
      | Line.Context t :: acc' =>
        (match strip_newline t with
         | .error e => .error e
         | .ok t' => .ok (Line.Context t' :: acc', true, nd, ni))
      | Line.Delete t :: acc' =>
        (match strip_newline t with
         | .error e => .error e
         | .ok t' => .ok (Line.Delete t' :: acc', false, true, ni))
      | Line.Insert t :: acc' =>
        (match strip_newline t with
         | .error e => .error e
         | .ok t' => .ok (Line.Insert t' :: acc', false, nd, true)) := by
  obtain ⟨u, hu⟩ := marker_head l hm
  have hA : stripPfx SP l = none := by
    rw [hu, show (SP : Bytes) = [32] from rfl, stripPfx_single]
    simp
  have hB : starts_with NL l = false := by
    rw [hu, show (NL : Bytes) = [10] from rfl, starts_with_single]
    simp
  have hC : stripPfx DASH l = none := by
    rw [hu, show (DASH : Bytes) = [45] from rfl, stripPfx_single]
    simp
  have hD : stripPfx PLUS l = none := by
    rw [hu, show (PLUS : Bytes) = [43] from rfl, stripPfx_single]
    simp
  unfold hunk_lines_step
  simp only [hA, hB, hC, hD, hm, Bool.false_eq_true, if_false, if_true]

theorem not_boundary_of_head {b : Nat} {t l : Bytes} (h : l = b :: t) (hb : b ≠ 64) :
    starts_with ATB l = false := by
  subst h
  rw [show (ATB : Bytes) = [64] from rfl, starts_with_single]
  exact decide_eq_false (fun he => hb he.symm)

theorem step_nc_true (acc : List Line) (nd ni : Bool) (l : Bytes) :
    hunk_lines_step acc true nd ni l = .error msgExpectedEndOfHunk := rfl

theorem step_space (acc : List Line) (nd ni : Bool) (t l : Bytes)
    (h : stripPfx SP l = some t) :
    hunk_lines_step acc false nd ni l = .ok (Line.Context t :: acc, false, nd, ni) := by
  unfold hunk_lines_step
  simp [h]

theorem step_dash (acc : List Line) (nd ni : Bool) (t l : Bytes)
    (h : stripPfx DASH l = some t) :
    hunk_lines_step acc false nd ni l =
      if nd then .error msgNoMoreDeleted
      else .ok (Line.Delete t :: acc, false, nd, ni) := by
  have hl : l = 45 :: t := stripPfx_eq.mp h
  subst hl
  unfold hunk_lines_step
  simp [stripPfx_single, starts_with_single, SP, NL, DASH]

theorem step_plus (acc : List Line) (nd ni : Bool) (t l : Bytes)
    (h : stripPfx PLUS l = some t) :
    hunk_lines_step acc false nd ni l =
      if ni then .error msgNoMoreInserted
      else .ok (Line.Insert t :: acc, false, nd, ni) := by
  have hl : l = 43 :: t := stripPfx_eq.mp h
  subst hl
  unfold hunk_lines_step
  simp [stripPfx_single, starts_with_single, SP, NL, DASH, PLUS]

-- Claim theorems.

/-- Claim C1, code bug: for a recognised escape the source pushes the
backslash byte instead of the byte the escape denotes, so the quoted
filename content a-backslash-n-b decodes to a-backslash-b rather than to
a-newline-b as the spec demands; the unknown-escape error does hold. -/
theorem c1_escaped_filename_behaviour :
    escaped_filename [97, 92, 110, 98] = .ok [97, 92, 98] ∧
    escaped_filename [97, 92, 110, 98] ≠ .ok [97, 10, 98] ∧
    escaped_filename [97, 92, 34, 98] = .ok [97, 92, 98] ∧
    escaped_filename [97, 92, 116, 98] = .ok [97, 92, 98] ∧
    escaped_filename [97, 92, 92, 98] = .ok [97, 92, 98] ∧
    escaped_filename [92, 120] = .error msgInvalidEscapedChar := by
  refine ⟨?_, ?_, ?_, ?_, ?_, ?_⟩ <;> decide

/-- Claim C2, counterexample: on the hunk-header line with bytes of
at-at-space-dash-1-space-plus-1-space-at-at-x-newline, the text after the
terminator is present (the byte x), yet the parser returns no function
context, refuting that the context is omitted exactly when that text is
absent. -/
theorem c2_counterexample :
    hunk_header c2line = .ok (⟨1, 1⟩, ⟨1, 1⟩, none) ∧
    specFnCtx c2line = some (some [120]) := by
  constructor <;> decide

/-- Claim C2 (amended): for every hunk-header line that strips the opener
and splits at the terminator, the parsed function context equals the
space-strip of the text after the terminator (that text running through
the line's end, trailing newline included): it is present exactly when
that text begins with a space, and then equals it minus that one space. -/
theorem c2_function_context (line input1 ranges fcRaw : Bytes)
    (r1 r2 : HunkRange) (fc : Option Bytes)
    (h1 : stripPfx atatSp line = some input1)
    (h2 : split_at_exclusive spAtat input1 = some (ranges, fcRaw))
    (h3 : hunk_header line = .ok (r1, r2, fc)) :
    fc = stripPfx SP fcRaw := by
  unfold hunk_header at h3
  simp only [h1, h2] at h3
  cases hsp : split_at_exclusive SP ranges with
  | none => simp only [hsp] at h3; exact Except.noConfusion h3
  | some pr =>
    obtain ⟨range1s, range2s⟩ := pr
    simp only [hsp] at h3
    cases hd1 : stripPfx DASH range1s with
    | none => simp only [hd1] at h3; exact Except.noConfusion h3
    | some r1s =>
      simp only [hd1] at h3
      cases hr1 : range r1s with
      | error e => simp only [hr1] at h3; exact Except.noConfusion h3
      | ok rg1 =>
        simp only [hr1] at h3
        cases hp2 : stripPfx PLUS range2s with
        | none => simp only [hp2] at h3; exact Except.noConfusion h3
        | some r2s =>
          simp only [hp2] at h3
          cases hr2 : range r2s with
          | error e => simp only [hr2] at h3; exact Except.noConfusion h3
          | ok rg2 =>
            simp only [hr2, Except.ok.injEq, Prod.mk.injEq] at h3
            exact h3.2.2.symm

/-- Witness for the amended C2 theorem at a concrete space-led context. -/
theorem c2_function_context_witness :
    (some [102, 10] : Option Bytes) = stripPfx SP [32, 102, 10] :=
  c2_function_context c2line' [45, 49, 32, 43, 49, 32, 64, 64, 32, 102, 10]
    [45, 49, 32, 43, 49] [32, 102, 10] ⟨1, 1⟩ ⟨1, 1⟩ (some [102, 10])
    (by decide) (by decide) (by decide)

/-- Claim C5: on a marker line inside a hunk body (context flag clear),
the most recently pushed line is popped; with an empty accumulator the
parse fails with the unexpected-marker error; a popped line without a
trailing newline fails with the missing-newline error; otherwise the line
is re-emitted with the same kind, stripped of its newline, and the flag
of that kind is set. -/
theorem c5_no_newline_marker (nd ni : Bool) (l : Bytes) (rest : List Bytes)
    (hm : starts_with NO_NEWLINE_AT_EOF l = true) :
    (hunk_lines_loop [] false nd ni (l :: rest) = .error msgUnexpectedNoNewline) ∧
    (∀ (t : Bytes) (acc' : List Line),
      (stripSfx NL t = none →
        hunk_lines_loop (Line.Context t :: acc') false nd ni (l :: rest) =
          .error msgMissingNewline) ∧
      (∀ t' : Bytes, stripSfx NL t = some t' →
        hunk_lines_loop (Line.Context t :: acc') false nd ni (l :: rest) =
          hunk_lines_loop (Line.Context t' :: acc') true nd ni rest)) ∧
    (∀ (t : Bytes) (acc' : List Line),
      (stripSfx NL t = none →
        hunk_lines_loop (Line.Delete t :: acc') false nd ni (l :: rest) =
          .error msgMissingNewline) ∧
      (∀ t' : Bytes, stripSfx NL t = some t' →
        hunk_lines_loop (Line.Delete t :: acc') false nd ni (l :: rest) =
          hunk_lines_loop (Line.Delete t' :: acc') false true ni rest)) ∧
    (∀ (t : Bytes) (acc' : List Line),
      (stripSfx NL t = none →
        hunk_lines_loop (Line.Insert t :: acc') false nd ni (l :: rest) =
          .error msgMissingNewline) ∧
      (∀ t' : Bytes, stripSfx NL t = some t' →
        hunk_lines_loop (Line.Insert t :: acc') false nd ni (l :: rest) =
          hunk_lines_loop (Line.Insert t' :: acc') false nd true rest)) := by
  have hb := marker_not_boundary l hm
  refine ⟨?_, fun t acc' => ⟨?_, ?_⟩, fun t acc' => ⟨?_, ?_⟩, fun t acc' => ⟨?_, ?_⟩⟩
  · simp only [hunk_lines_loop_cons, hb, Bool.false_eq_true, if_false,
      step_marker [] nd ni l hm]
  · intro hn
    simp only [hunk_lines_loop_cons, hb, Bool.false_eq_true, if_false,
      step_marker (Line.Context t :: acc') nd ni l hm, strip_newline, hn]
  · intro t' ht'
    simp only [hunk_lines_loop_cons, hb, Bool.false_eq_true, if_false,
      step_marker (Line.Context t :: acc') nd ni l hm, strip_newline, ht']
  · intro hn
    simp only [hunk_lines_loop_cons, hb, Bool.false_eq_true, if_false,
      step_marker (Line.Delete t :: acc') nd ni l hm, strip_newline, hn]
  · intro t' ht'
    simp only [hunk_lines_loop_cons, hb, Bool.false_eq_true, if_false,
      step_marker (Line.Delete t :: acc') nd ni l hm, strip_newline, ht']
  · intro hn
    simp only [hunk_lines_loop_cons, hb, Bool.false_eq_true, if_false,
      step_marker (Line.Insert t :: acc') nd ni l hm, strip_newline, hn]
  · intro t' ht'
    simp only [hunk_lines_loop_cons, hb, Bool.false_eq_true, if_false,
      step_marker (Line.Insert t :: acc') nd ni l hm, strip_newline, ht']

/-- Witness for C5: popping a context line with a trailing newline. -/
theorem c5_no_newline_marker_witness :
    hunk_lines_loop [Line.Context [120, 10]] false false false [markerLine] =
      hunk_lines_loop [Line.Context [120]] true false false [] :=
  ((c5_no_newline_marker false false markerLine [] (by decide)).2.1 [120, 10]
    []).2 [120] (by decide)

/-- Claim C6: once the context no-newline flag is set, any line that is
not a hunk boundary makes the body parse fail with the expected-end
error. -/
theorem c6_context_flag_terminates (acc : List Line) (nd ni : Bool) (l : Bytes)
    (rest : List Bytes) (hb : starts_with ATB l = false) :
    hunk_lines_loop acc true nd ni (l :: rest) = .error msgExpectedEndOfHunk := by
  simp only [hunk_lines_loop_cons, hb, Bool.false_eq_true, if_false, step_nc_true]

/-- Witness for C6 at a concrete context line. -/
theorem c6_context_flag_terminates_witness :
    hunk_lines_loop [] true false false [[32, 120, 10]] =
      .error msgExpectedEndOfHunk :=
  c6_context_flag_terminates [] false false [32, 120, 10] [] (by decide)

/-- Claim C7: a range text with a comma parses both numbers, failing with
the cannot-parse error on a malformed numeral; without a comma the length
defaults to 1; in particular the comma-less header at-at-space-dash-1-
space-plus-1-space-at-at yields ranges of start 1 and length 1. -/
theorem c7_range_parsing :
    (∀ (s a b : Bytes) (n m : Nat), split_at_exclusive COMMA s = some (a, b) →
      parseNatB a = some n → parseNatB b = some m → range s = .ok ⟨n, m⟩) ∧
    (∀ (s a b : Bytes), split_at_exclusive COMMA s = some (a, b) →
      (parseNatB a = none ∨ parseNatB b = none) →
      range s = .error msgCantParseRange) ∧
    (∀ (s : Bytes) (n : Nat), split_at_exclusive COMMA s = none →
      parseNatB s = some n → range s = .ok ⟨n, 1⟩) ∧
    (∀ s : Bytes, split_at_exclusive COMMA s = none → parseNatB s = none →
      range s = .error msgCantParseRange) ∧
    hunk_header c7line = .ok (⟨1, 1⟩, ⟨1, 1⟩, none) := by
  refine ⟨?_, ?_, ?_, ?_, by decide⟩
  · intro s a b n m hsp hn hm
    unfold range
    simp only [hsp, hn, hm]
  · intro s a b hsp hor
    unfold range
    rcases hor with h | h
    · simp only [hsp, h]
    · cases hn : parseNatB a with
      | none => simp only [hsp, hn]
      | some n => simp only [hsp, hn, h]
  · intro s n hsp hn
    unfold range
    simp only [hsp, hn]
  · intro s hsp hn
    unfold range
    simp only [hsp, hn]

/-- Witness for C7 at the comma range text 1-comma-2. -/
theorem c7_range_parsing_witness : range [49, 44, 50] = .ok ⟨1, 2⟩ :=
  c7_range_parsing.1 [49, 44, 50] [49] [50] 1 2 (by decide) (by decide)
    (by decide)

/-- Claim C10: the delete and insert no-newline flags each forbid only
further lines of their own kind; context lines are accepted under either
flag, and insert lines under the delete flag (and symmetrically), while
the context flag forbids every non-boundary line. -/
theorem c10_kind_flags :
    (∀ (acc : List Line) (ni : Bool) (t l : Bytes) (rest : List Bytes),
      stripPfx DASH l = some t →
      hunk_lines_loop acc false true ni (l :: rest) = .error msgNoMoreDeleted) ∧
    (∀ (acc : List Line) (nd : Bool) (t l : Bytes) (rest : List Bytes),
      stripPfx PLUS l = some t →
      hunk_lines_loop acc false nd true (l :: rest) = .error msgNoMoreInserted) ∧
    (∀ (acc : List Line) (nd ni : Bool) (t l : Bytes) (rest : List Bytes),
      stripPfx SP l = some t →
      hunk_lines_loop acc false nd ni (l :: rest) =
        hunk_lines_loop (Line.Context t :: acc) false nd ni rest) ∧
    (∀ (acc : List Line) (ni : Bool) (t l : Bytes) (rest : List Bytes),
      stripPfx DASH l = some t →
      hunk_lines_loop acc false false ni (l :: rest) =
        hunk_lines_loop (Line.Delete t :: acc) false false ni rest) ∧
    (∀ (acc : List Line) (nd : Bool) (t l : Bytes) (rest : List Bytes),
      stripPfx PLUS l = some t →
      hunk_lines_loop acc false nd false (l :: rest) =
        hunk_lines_loop (Line.Insert t :: acc) false nd false rest) ∧
    (∀ (acc : List Line) (nd ni : Bool) (l : Bytes) (rest : List Bytes),
      starts_with ATB l = false →
      hunk_lines_loop acc true nd ni (l :: rest) = .error msgExpectedEndOfHunk) := by
  refine ⟨?_, ?_, ?_, ?_, ?_, ?_⟩
  · intro acc ni t l rest hd
    have hab : starts_with ATB l = false :=
      not_boundary_of_head (stripPfx_eq.mp hd) (by omega)
    simp [hunk_lines_loop_cons, hab, step_dash acc true ni t l hd]
  · intro acc nd t l rest hp
    have hab : starts_with ATB l = false :=
      not_boundary_of_head (stripPfx_eq.mp hp) (by omega)
    simp [hunk_lines_loop_cons, hab, step_plus acc nd true t l hp]
  · intro acc nd ni t l rest hs
    have hab : starts_with ATB l = false :=
      not_boundary_of_head (stripPfx_eq.mp hs) (by omega)
    simp [hunk_lines_loop_cons, hab, step_space acc nd ni t l hs]
  · intro acc ni t l rest hd
    have hab : starts_with ATB l = false :=
      not_boundary_of_head (stripPfx_eq.mp hd) (by omega)
    simp [hunk_lines_loop_cons, hab, step_dash acc false ni t l hd]
  · intro acc nd t l rest hp
    have hab : starts_with ATB l = false :=
      not_boundary_of_head (stripPfx_eq.mp hp) (by omega)
    simp [hunk_lines_loop_cons, hab, step_plus acc nd false t l hp]
  · intro acc nd ni l rest hab
    simp only [hunk_lines_loop_cons, hab, Bool.false_eq_true, if_false, step_nc_true]

/-- Witness for C10: an insert line is still accepted after the delete
no-newline flag is set. -/
theorem c10_kind_flags_witness :
    hunk_lines_loop [] false true false [[43, 120, 10]] =
      hunk_lines_loop [Line.Insert [120, 10]] false true false [] :=
  c10_kind_flags.2.2.2.2.1 [] true [120, 10] [43, 120, 10] [] (by decide)

theorem skip_preamble_cons (a : Bytes) (rest : List Bytes) :
    skip_header_preamble (a :: rest) =
      if starts_with hdrOldPfx a then a :: rest
      else skip_header_preamble rest := rfl

theorem hunks_step (ls0 : List Bytes) (hs0 : List Hunk)
    (h0 : hunksLoop ls0 = .ok hs0) :
    hunks ls0 =
      if verify_hunks_in_order hs0 then .ok hs0 else .error msgHunksOrder := by
  unfold hunks
  simp only [h0]

/-- Claim C3: when every hunk parses, collection fails with the single
ordering error exactly when some adjacent pair of hunks violates strict
ordering in either coordinate space; otherwise all hunks are returned, and
the whole byte parse surfaces the same single error. -/
theorem c3_hunks_order (ls : List Bytes) (hs : List Hunk)
    (hok : hunksLoop ls = .ok hs) :
    ((hunks ls = .error msgHunksOrder) ↔ ¬ List.Chain' hunkOrd hs) ∧
    (List.Chain' hunkOrd hs → hunks ls = .ok hs) ∧
    (∀ (input : Bytes) (hdr : Bytes × Bytes) (rest : List Bytes)
       (hs' : List Hunk),
      patch_header (splitLines input) = .ok (hdr, rest) →
      hunksLoop rest = .ok hs' → ¬ List.Chain' hunkOrd hs' →
      parse_bytes input = .error msgHunksOrder) := by
  refine ⟨?_, ?_, ?_⟩
  · rw [hunks_step ls hs hok]
    by_cases hv : verify_hunks_in_order hs = true
    · rw [if_pos hv]
      constructor
      · intro h
        exact Except.noConfusion h
      · intro hnc
        exact absurd ((verify_iff_chain hs).mp hv) hnc
    · rw [if_neg hv]
      constructor
      · intro _ hch
        exact hv ((verify_iff_chain hs).mpr hch)
      · intro _
        rfl
  · intro hch
    rw [hunks_step ls hs hok, if_pos ((verify_iff_chain hs).mpr hch)]
  · intro input hdr rest hs' hph hloop hnc
    obtain ⟨f1, f2⟩ := hdr
    have hh : hunks rest = .error msgHunksOrder := by
      rw [hunks_step rest hs' hloop,
        if_neg (fun hv => hnc ((verify_iff_chain hs').mp hv))]
    unfold parse_bytes
    simp only [hph, hh]

/-- Witness for C3: a single well-ordered hunk is returned. -/
theorem c3_hunks_order_witness :
    hunks c3lines =
      .ok [⟨⟨1, 1⟩, ⟨1, 1⟩, none,
        [Line.Delete [97, 10], Line.Insert [98, 10]]⟩] :=
  (c3_hunks_order c3lines
    [⟨⟨1, 1⟩, ⟨1, 1⟩, none, [Line.Delete [97, 10], Line.Insert [98, 10]]⟩]
    (by decide)).2.1 (by simp)

theorem hunk_counts_ok {ls : List Bytes} {hk : Hunk} {rest : List Bytes}
    (h : hunk ls = .ok (hk, rest)) :
    hk.lines.countP isOldLine = hk.old_range.len ∧
    hk.lines.countP isNewLine = hk.new_range.len := by
  cases ls with
  | nil => exact Except.noConfusion h
  | cons hl tl =>
    rw [hunk_cons] at h
    split at h
    · exact Except.noConfusion h
    · split at h
      · exact Except.noConfusion h
      · split at h
        · exact Except.noConfusion h
        · rename_i hcond
          push_neg at hcond
          simp only [Except.ok.injEq, Prod.mk.injEq] at h
          obtain ⟨h1, h2⟩ := h
          subst h1
          simp only [hunk_lines_count] at hcond
          exact ⟨hcond.1, hcond.2⟩

theorem hunksLoopF_counts :
    ∀ (fuel : Nat) (ls : List Bytes) (hs : List Hunk),
      hunksLoopF fuel ls = .ok hs →
      ∀ hk ∈ hs, hk.lines.countP isOldLine = hk.old_range.len ∧
        hk.lines.countP isNewLine = hk.new_range.len := by
  intro fuel
  induction fuel with
  | zero =>
    intro ls hs h
    cases ls with
    | nil =>
      simp only [show hunksLoopF 0 [] = .ok [] from rfl, Except.ok.injEq] at h
      subst h
      intro hk hmem
      simp at hmem
    | cons l rest => exact Except.noConfusion h
  | succ n ih =>
    intro ls hs h
    cases ls with
    | nil =>
      simp only [show hunksLoopF (n + 1) [] = .ok [] from rfl,
        Except.ok.injEq] at h
      subst h
      intro hk hmem
      simp at hmem
    | cons l rest =>
      cases hk0 : hunk (l :: rest) with
      | error e =>
        rw [hunksLoopF_succ_err n l rest e hk0] at h
        exact Except.noConfusion h
      | ok pr =>
        obtain ⟨hkh, rest'⟩ := pr
        rw [hunksLoopF_succ_ok n l rest hkh rest' hk0] at h
        cases hrec : hunksLoopF n rest' with
        | error e =>
          simp only [hrec] at h
          exact Except.noConfusion h
        | ok hs' =>
          simp only [hrec, Except.ok.injEq] at h
          subst h
          intro hk hmem
          rcases List.mem_cons.mp hmem with hmem | hmem
          · subst hmem
            exact hunk_counts_ok hk0
          · exact ih rest' hs' hrec hk hmem

theorem hunks_ok_means {ls : List Bytes} {hs : List Hunk}
    (h : hunks ls = .ok hs) : hunksLoop ls = .ok hs := by
  unfold hunks at h
  cases hl : hunksLoop ls with
  | error e =>
    simp only [hl] at h
    exact Except.noConfusion h
  | ok hs' =>
    simp only [hl] at h
    split at h
    · simp only [Except.ok.injEq] at h
      subst h
      rfl
    · exact Except.noConfusion h

theorem parse_bytes_ok_hunks {input : Bytes} {p : Patch}
    (h : parse_bytes input = .ok p) : ∃ rest, hunks rest = .ok p.hunks := by
  unfold parse_bytes at h
  cases hph : patch_header (splitLines input) with
  | error e =>
    simp only [hph] at h
    exact Except.noConfusion h
  | ok pr =>
    obtain ⟨⟨f1, f2⟩, rest⟩ := pr
    simp only [hph] at h
    cases hh : hunks rest with
    | error e =>
      simp only [hh] at h
      exact Except.noConfusion h
    | ok hs =>
      simp only [hh, Except.ok.injEq] at h
      subst h
      exact ⟨rest, hh⟩

/-- Claim C4: a hunk whose header and body parse is rejected with the
mismatch error exactly when the context-plus-delete count differs from the
old length or the context-plus-insert count differs from the new length;
and every hunk of a successfully parsed patch satisfies both count
equalities. -/
theorem c4_hunk_counts (hl : Bytes) (tl : List Bytes) (r1 r2 : HunkRange)
    (fc : Option Bytes) (lns : List Line) (rest' : List Bytes)
    (hh : hunk_header hl = .ok (r1, r2, fc))
    (hb : hunk_lines tl = .ok (lns, rest')) :
    ((hunk (hl :: tl) = .error msgHunkMismatch) ↔
      (lns.countP isOldLine ≠ r1.len ∨ lns.countP isNewLine ≠ r2.len)) ∧
    (lns.countP isOldLine = r1.len ∧ lns.countP isNewLine = r2.len →
      hunk (hl :: tl) = .ok (⟨r1, r2, fc, lns⟩, rest')) ∧
    (∀ (input : Bytes) (p : Patch), parse_bytes input = .ok p →
      ∀ hk ∈ p.hunks, hk.lines.countP isOldLine = hk.old_range.len ∧
        hk.lines.countP isNewLine = hk.new_range.len) := by
  have hstep : hunk (hl :: tl) =
      if lns.countP isOldLine ≠ r1.len ∨ lns.countP isNewLine ≠ r2.len then
        .error msgHunkMismatch
      else .ok (⟨r1, r2, fc, lns⟩, rest') := by
    rw [hunk_cons]
    simp only [hh, hb, hunk_lines_count]
  refine ⟨?_, ?_, ?_⟩
  · rw [hstep]
    by_cases hc : lns.countP isOldLine ≠ r1.len ∨ lns.countP isNewLine ≠ r2.len
    · rw [if_pos hc]
      exact ⟨fun _ => hc, fun _ => rfl⟩
    · rw [if_neg hc]
      exact ⟨fun h => Except.noConfusion h, fun h => absurd h hc⟩
  · intro hc
    rw [hstep, if_neg (by push_neg; exact hc)]
  · intro input p hp hk hmem
    obtain ⟨rest, hrest⟩ := parse_bytes_ok_hunks hp
    exact hunksLoopF_counts rest.length rest p.hunks (hunks_ok_means hrest)
      hk hmem

/-- Witness for C4 at a concrete matching hunk. -/
theorem c4_hunk_counts_witness :
    hunk ([64, 64, 32, 45, 49, 44, 49, 32, 43, 49, 44, 49, 32, 64, 64, 10] ::
        [[45, 97, 10], [43, 98, 10]]) =
      .ok (⟨⟨1, 1⟩, ⟨1, 1⟩, none,
        [Line.Delete [97, 10], Line.Insert [98, 10]]⟩, []) :=
  (c4_hunk_counts [64, 64, 32, 45, 49, 44, 49, 32, 43, 49, 44, 49, 32, 64, 64, 10]
    [[45, 97, 10], [43, 98, 10]] ⟨1, 1⟩ ⟨1, 1⟩ none
    [Line.Delete [97, 10], Line.Insert [98, 10]] [] (by decide)
    (by decide)).2.1 (by decide)

/-- Claim C8: header parsing skips every line before the first one
starting with the old-filename marker, requires that line and the
immediately following new-filename line, and reports unexpected EOF when
the input runs out before both are found (in particular on empty input and
on an input whose new-filename line is missing). -/
theorem c8_patch_header :
    (∀ pre ls : List Bytes, (∀ l ∈ pre, starts_with hdrOldPfx l = false) →
      patch_header (pre ++ ls) = patch_header ls) ∧
    patch_header [] = .error msgUnexpectedEOF ∧
    patch_header (splitLines c8input) = .error msgUnexpectedEOF ∧
    (∀ (l1 : Bytes) (rest1 : List Bytes), starts_with hdrOldPfx l1 = true →
      patch_header (l1 :: rest1) =
        match parse_filename hdrOldPfx l1 with
        | .error e => .error e
        | .ok f1 =>
          match rest1 with
          | [] => .error msgUnexpectedEOF
          | l2 :: rest2 =>
            match parse_filename hdrNewPfx l2 with
            | .error e => .error e
            | .ok f2 => .ok ((f1, f2), rest2)) := by
  refine ⟨?_, by decide, by decide, ?_⟩
  · intro pre ls hpre
    have hskip : skip_header_preamble (pre ++ ls) = skip_header_preamble ls := by
      induction pre with
      | nil => rfl
      | cons a pre' ih =>
        rw [List.cons_append, skip_preamble_cons,
          hpre a (List.mem_cons_self a pre'), if_neg (by simp)]
        exact ih (fun l hl => hpre l (List.mem_cons_of_mem a hl))
    unfold patch_header
    rw [hskip]
  · intro l1 rest1 h1
    have hskip : skip_header_preamble (l1 :: rest1) = l1 :: rest1 := by
      rw [skip_preamble_cons, h1]
      simp
    unfold patch_header
    rw [hskip]

/-- Witness for C8: preamble lines before the filename pair are skipped. -/
theorem c8_patch_header_witness :
    patch_header (c8pre ++ splitLines c8input) =
      patch_header (splitLines c8input) :=
  c8_patch_header.1 c8pre (splitLines c8input) (by decide)

-- UTF-8 automaton lemmas, for the convert step of the str entry point.

theorem utf8Step_zero (x y b : Nat) :
    utf8Step (0, x, y) b =
      if b ≤ 0x7F then some (0, 0, 0)
      else
        match utf8CharLen b with
        | none => none
        | some (lo, hi, m) => some (m + 1, lo, hi) := rfl

theorem utf8Step_succ (k lo hi b : Nat) :
    utf8Step (k + 1, lo, hi) b =
      if lo ≤ b ∧ b ≤ hi then
        if k = 0 then some (0, 0, 0) else some (k, 0x80, 0xBF)
      else none := rfl

theorem utf8Run_nil (st : Nat × Nat × Nat) : utf8Run st [] = some st := rfl

theorem utf8Run_cons (st : Nat × Nat × Nat) (b : Nat) (rest : Bytes) :
    utf8Run st (b :: rest) =
      match utf8Step st b with
      | none => none
      | some st' => utf8Run st' rest := rfl

theorem utf8CharLen_lo {b lo hi m : Nat}
    (h : utf8CharLen b = some (lo, hi, m)) : 0x80 ≤ lo := by
  unfold utf8CharLen at h
  split_ifs at h <;> simp only [Option.some.injEq, Prod.mk.injEq] at h <;> omega

theorem utf8Run_append (xs : Bytes) :
    ∀ (st : Nat × Nat × Nat) (ys : Bytes),
      utf8Run st (xs ++ ys) =
        match utf8Run st xs with
        | none => none
        | some st' => utf8Run st' ys := by
  induction xs with
  | nil =>
    intro st ys
    rw [List.nil_append, utf8Run_nil]
  | cons b rest ih =>
    intro st ys
    rw [List.cons_append, utf8Run_cons, utf8Run_cons]
    cases hs : utf8Step st b with
    | none => rfl
    | some st' => exact ih st' ys

theorem step_good {st st' : Nat × Nat × Nat} {b : Nat} (hg : goodSt st)
    (h : utf8Step st b = some st') : goodSt st' := by
  obtain ⟨k, lo, hi⟩ := st
  cases k with
  | zero =>
    rw [utf8Step_zero] at h
    split at h
    · simp only [Option.some.injEq] at h
      subst h
      exact Or.inl rfl
    · cases hcl : utf8CharLen b with
      | none =>
        simp only [hcl] at h
        exact Option.noConfusion h
      | some tri =>
        obtain ⟨lo2, hi2, m⟩ := tri
        simp only [hcl, Option.some.injEq] at h
        subst h
        exact Or.inr ⟨m, lo2, hi2, rfl, utf8CharLen_lo hcl⟩
  | succ k' =>
    rw [utf8Step_succ] at h
    split at h
    · split at h
      · simp only [Option.some.injEq] at h
        subst h
        exact Or.inl rfl
      · rename_i hk
        simp only [Option.some.injEq] at h
        subst h
        obtain ⟨j, hj⟩ := Nat.exists_eq_succ_of_ne_zero hk
        exact Or.inr ⟨j, 0x80, 0xBF, by rw [hj], by omega⟩
    · exact Option.noConfusion h

theorem run_good :
    ∀ (bs : Bytes) (st st' : Nat × Nat × Nat), goodSt st →
      utf8Run st bs = some st' → goodSt st' := by
  intro bs
  induction bs with
  | nil =>
    intro st st' hg h
    rw [utf8Run_nil] at h
    simp only [Option.some.injEq] at h
    subst h
    exact hg
  | cons b rest ih =>
    intro st st' hg h
    rw [utf8Run_cons] at h
    cases hs : utf8Step st b with
    | none =>
      simp only [hs] at h
      exact Option.noConfusion h
    | some st2 =>
      simp only [hs] at h
      exact ih st2 st' (step_good hg hs) h

theorem valid_split {xs : Bytes} {b : Nat} {ys : Bytes} (hb : b ≤ 0x7F)
    (h : Utf8Valid (xs ++ b :: ys) = true) :
    Utf8Valid xs = true ∧ Utf8Valid (b :: ys) = true := by
  unfold Utf8Valid at h ⊢
  rw [decide_eq_true_eq] at h
  rw [decide_eq_true_eq, decide_eq_true_eq]
  rw [utf8Run_append] at h
  cases hx : utf8Run (0, 0, 0) xs with
  | none =>
    simp only [hx] at h
    exact Option.noConfusion h
  | some st' =>
    simp only [hx] at h
    have hg : goodSt st' := run_good xs (0, 0, 0) st' (Or.inl rfl) hx
    have hst : st' = (0, 0, 0) := by
      rcases hg with hg | ⟨k, lo, hi, hst, hlo⟩
      · exact hg
      · exfalso
        subst hst
        rw [utf8Run_cons, utf8Step_succ, if_neg (by omega)] at h
        exact Option.noConfusion h
    subst hst
    exact ⟨rfl, h⟩

theorem utf8Run_ascii {p : Bytes} (hp : ∀ c ∈ p, c ≤ 0x7F) :
    utf8Run (0, 0, 0) p = some (0, 0, 0) := by
  induction p with
  | nil => rfl
  | cons b rest ih =>
    rw [utf8Run_cons, utf8Step_zero, if_pos (hp b (List.mem_cons_self b rest))]
    exact ih (fun c hc => hp c (List.mem_cons_of_mem b hc))

theorem valid_of_ascii_append {p t : Bytes} (hp : ∀ c ∈ p, c ≤ 0x7F)
    (h : Utf8Valid (p ++ t) = true) : Utf8Valid t = true := by
  unfold Utf8Valid at h ⊢
  rw [decide_eq_true_eq] at h
  rw [decide_eq_true_eq]
  rw [utf8Run_append, utf8Run_ascii hp] at h
  exact h

theorem utf8_cons_ascii {b : Nat} (hb : b ≤ 0x7F) (bs : Bytes) :
    Utf8Valid (b :: bs) = Utf8Valid bs := by
  unfold Utf8Valid
  rw [utf8Run_cons, utf8Step_zero, if_pos hb]

theorem valid_append {xs ys : Bytes} (hx : Utf8Valid xs = true)
    (hy : Utf8Valid ys = true) : Utf8Valid (xs ++ ys) = true := by
  unfold Utf8Valid at hx hy ⊢
  rw [decide_eq_true_eq] at hx hy
  rw [decide_eq_true_eq, utf8Run_append, hx]
  exact hy

theorem escaped_contains_false {c : Nat} (hc : 0x80 ≤ c) :
    ESCAPED_CHARS_BYTES.contains c = false := by
  simp [ESCAPED_CHARS_BYTES]
  omega

theorem escaped_cons_escape {d : Nat} (rest2 : Bytes)
    (hd : d = 110 ∨ d = 116 ∨ d = 48 ∨ d = 114 ∨ d = 34 ∨ d = 92) :
    escaped_filename (92 :: d :: rest2) =
      match escaped_filename rest2 with
      | .error e => .error e
      | .ok tl => .ok (92 :: tl) := by
  simp [escaped_filename, hd]

theorem escaped_cons_ordinary {c : Nat} (hc : c ≠ 92)
    (hm : ESCAPED_CHARS_BYTES.contains c = false) (rest : Bytes) :
    escaped_filename (c :: rest) =
      match escaped_filename rest with
      | .error e => .error e
      | .ok tl => .ok (c :: tl) := by
  have hm2 : c ∉ ESCAPED_CHARS_BYTES := by simpa using hm
  cases rest with
  | nil => simp [escaped_filename, hc, hm2]
  | cons d rest2 => simp [escaped_filename, hc, hm2]

theorem escaped_run_aux :
    ∀ (n : Nat) (e : Bytes), e.length ≤ n → ∀ out : Bytes,
      escaped_filename e = .ok out → ∀ st : Nat × Nat × Nat, goodSt st →
      utf8Run st e = utf8Run st out := by
  intro n
  induction n with
  | zero =>
    intro e hlen out h st hg
    cases e with
    | nil =>
      simp only [escaped_filename, Except.ok.injEq] at h
      subst h
      rfl
    | cons a t => simp at hlen
  | succ n ih =>
    intro e hlen out h st hg
    cases e with
    | nil =>
      simp only [escaped_filename, Except.ok.injEq] at h
      subst h
      rfl
    | cons c rest =>
      simp only [List.length_cons] at hlen
      by_cases hc92 : c = 92
      · subst hc92
        cases rest with
        | nil => simp [escaped_filename] at h
        | cons d rest2 =>
          simp only [List.length_cons] at hlen
          by_cases hd : d = 110 ∨ d = 116 ∨ d = 48 ∨ d = 114 ∨ d = 34 ∨ d = 92
          · rw [escaped_cons_escape rest2 hd] at h
            cases hrec : escaped_filename rest2 with
            | error e2 =>
              simp only [hrec] at h
              exact Except.noConfusion h
            | ok tl =>
              simp only [hrec, Except.ok.injEq] at h
              subst h
              rcases hg with hg | ⟨k, lo, hi, hst, hlo⟩
              · subst hg
                rw [utf8Run_cons (0, 0, 0) 92, utf8Run_cons (0, 0, 0) 92,
                  utf8Step_zero, if_pos (by omega)]
                show utf8Run (0, 0, 0) (d :: rest2) = utf8Run (0, 0, 0) tl
                rw [utf8Run_cons, utf8Step_zero,
                  if_pos (by rcases hd with h | h | h | h | h | h <;> omega)]
                show utf8Run (0, 0, 0) rest2 = utf8Run (0, 0, 0) tl
                exact ih rest2 (by omega) tl hrec (0, 0, 0) (Or.inl rfl)
              · subst hst
                rw [utf8Run_cons (k + 1, lo, hi) 92, utf8Run_cons (k + 1, lo, hi) 92,
                  utf8Step_succ, if_neg (by omega)]
          · simp [escaped_filename, hd] at h
      · cases hm : ESCAPED_CHARS_BYTES.contains c with
        | true =>
          have hm2 : c ∈ ESCAPED_CHARS_BYTES := by simpa using hm
          rcases rest with _ | ⟨d, rest2⟩ <;>
            simp [escaped_filename, hc92, hm2] at h
        | false =>
          rw [escaped_cons_ordinary hc92 hm rest] at h
          cases hrec : escaped_filename rest with
          | error e2 =>
            simp only [hrec] at h
            exact Except.noConfusion h
          | ok tl =>
            simp only [hrec, Except.ok.injEq] at h
            subst h
            rw [utf8Run_cons st c, utf8Run_cons st c]
            cases hs : utf8Step st c with
            | none => rfl
            | some st2 =>
              exact ih rest (by omega) tl hrec st2 (step_good hg hs)

theorem escaped_filename_valid {e out : Bytes} (hv : Utf8Valid e = true)
    (h : escaped_filename e = .ok out) : Utf8Valid out = true := by
  unfold Utf8Valid at hv ⊢
  rw [decide_eq_true_eq] at hv
  rw [decide_eq_true_eq]
  rw [← escaped_run_aux e.length e le_rfl out h (0, 0, 0) (Or.inl rfl)]
  exact hv

theorem splitLinesAux_nil (acc : Bytes) :
    splitLinesAux acc [] = if acc = [] then [] else [acc.reverse] := rfl

theorem splitLinesAux_cons (acc : Bytes) (b : Nat) (rest : Bytes) :
    splitLinesAux acc (b :: rest) =
      if b = 10 then (acc.reverse ++ [10]) :: splitLinesAux [] rest
      else splitLinesAux (b :: acc) rest := rfl

theorem splitLinesAux_valid :
    ∀ (bs acc : Bytes), Utf8Valid (acc.reverse ++ bs) = true →
      ∀ l ∈ splitLinesAux acc bs, Utf8Valid l = true := by
  intro bs
  induction bs with
  | nil =>
    intro acc h l hl
    rw [splitLinesAux_nil] at hl
    split at hl
    · simp at hl
    · simp only [List.mem_singleton] at hl
      subst hl
      rw [List.append_nil] at h
      exact h
  | cons b rest ih =>
    intro acc h l hl
    rw [splitLinesAux_cons] at hl
    by_cases hb : b = 10
    · rw [if_pos hb] at hl
      subst hb
      obtain ⟨h1, h2⟩ := valid_split (by omega) h
      rcases List.mem_cons.mp hl with hl | hl
      · subst hl
        exact valid_append h1 (by decide)
      · have hrest : Utf8Valid rest = true := by
          rw [utf8_cons_ascii (by omega)] at h2
          exact h2
        exact ih [] (by simpa using hrest) l hl
    · rw [if_neg hb] at hl
      refine ih (b :: acc) ?_ l hl
      rw [List.reverse_cons, List.append_assoc]
      exact h

theorem splitLines_valid {input : Bytes} (hv : Utf8Valid input = true) :
    ∀ l ∈ splitLines input, Utf8Valid l = true :=
  splitLinesAux_valid input [] (by simpa using hv)

theorem is_quoted_valid {fn q : Bytes} (h : is_quoted fn = some q)
    (hv : Utf8Valid fn = true) : Utf8Valid q = true := by
  unfold is_quoted at h
  cases hq : stripPfx QUOTE fn with
  | none =>
    simp only [hq] at h
    exact Option.noConfusion h
  | some s1 =>
    simp only [hq] at h
    have h1 : fn = 34 :: s1 := stripPfx_eq.mp hq
    have h2 : s1 = q ++ [34] := stripSfx_eq.mp h
    subst h1
    subst h2
    rw [utf8_cons_ascii (by omega)] at hv
    exact (valid_split (by omega) hv).1

theorem filename_body_valid {fn f : Bytes} (hv : Utf8Valid fn = true)
    (h : (match is_quoted fn with
          | some quoted => escaped_filename quoted
          | none => unescaped_filename fn) = .ok f) :
    Utf8Valid f = true := by
  cases hq : is_quoted fn with
  | some q =>
    simp only [hq] at h
    exact escaped_filename_valid (is_quoted_valid hq hv) h
  | none =>
    simp only [hq] at h
    unfold unescaped_filename at h
    split at h
    · exact Except.noConfusion h
    · simp only [Except.ok.injEq] at h
      subst h
      exact hv

theorem parse_filename_valid {pfx line f : Bytes}
    (hpfx : ∀ c ∈ pfx, c ≤ 0x7F) (hv : Utf8Valid line = true)
    (h : parse_filename pfx line = .ok f) : Utf8Valid f = true := by
  unfold parse_filename at h
  cases hs : stripPfx pfx line with
  | none =>
    simp only [hs] at h
    exact Except.noConfusion h
  | some line1 =>
    simp only [hs] at h
    have hv1 : Utf8Valid line1 = true := by
      have hl : line = pfx ++ line1 := stripPfx_eq.mp hs
      rw [hl] at hv
      exact valid_of_ascii_append hpfx hv
    cases ht : split_at_exclusive TAB line1 with
    | some pr =>
      obtain ⟨fn, rest2⟩ := pr
      simp only [ht] at h
      have hvfn : Utf8Valid fn = true := by
        have he := split_at_exclusive_eq line1 fn rest2 ht
        rw [he, List.append_assoc,
          show (TAB : Bytes) ++ rest2 = 9 :: rest2 from rfl] at hv1
        exact (valid_split (by omega) hv1).1
      exact filename_body_valid hvfn h
    | none =>
      simp only [ht] at h
      cases hn : split_at_exclusive NL line1 with
      | none =>
        simp only [hn] at h
        exact Except.noConfusion h
      | some pr =>
        obtain ⟨fn, rest2⟩ := pr
        simp only [hn, Option.map_some'] at h
        have hvfn : Utf8Valid fn = true := by
          have he := split_at_exclusive_eq line1 fn rest2 hn
          rw [he, List.append_assoc,
            show (NL : Bytes) ++ rest2 = 10 :: rest2 from rfl] at hv1
          exact (valid_split (by omega) hv1).1
        exact filename_body_valid hvfn h

theorem patch_header_valid {ls : List Bytes} {f1 f2 : Bytes}
    {rest : List Bytes}
    (hlv : ∀ l ∈ ls, Utf8Valid l = true)
    (h : patch_header ls = .ok ((f1, f2), rest)) :
    Utf8Valid f1 = true ∧ Utf8Valid f2 = true := by
  unfold patch_header at h
  cases hsk : skip_header_preamble ls with
  | nil =>
    simp only [hsk] at h
    exact Except.noConfusion h
  | cons l1 rest1 =>
    simp only [hsk] at h
    have hmem1 : l1 ∈ ls :=
      skip_header_preamble_mem ls l1
        (by rw [hsk]; exact List.mem_cons_self l1 rest1)
    cases hf1 : parse_filename hdrOldPfx l1 with
    | error e =>
      simp only [hf1] at h
      exact Except.noConfusion h
    | ok g1 =>
      simp only [hf1] at h
      cases rest1 with
      | nil => exact Except.noConfusion h
      | cons l2 rest2 =>
        have hmem2 : l2 ∈ ls :=
          skip_header_preamble_mem ls l2
            (by rw [hsk]; exact List.mem_cons_of_mem l1 (List.mem_cons_self l2 rest2))
        cases hf2 : parse_filename hdrNewPfx l2 with
        | error e =>
          simp only [hf2] at h
          exact Except.noConfusion h
        | ok g2 =>
          simp only [hf2, Except.ok.injEq, Prod.mk.injEq] at h
          obtain ⟨⟨hg1, hg2⟩, -⟩ := h
          subst hg1
          subst hg2
          exact ⟨parse_filename_valid (by decide) (hlv l1 hmem1) hf1,
            parse_filename_valid (by decide) (hlv l2 hmem2) hf2⟩

/-- Claim C9: for every UTF-8 well-formed input, the string entry point
and the byte entry point agree: the same patch on success (the string
side merely re-tags the same filename bytes) and the same error message
on failure. -/
theorem c9_parse_agreement (input : Bytes) (hv : Utf8Valid input = true) :
    parse input = parse_bytes input := by
  unfold parse parse_bytes
  cases hph : patch_header (splitLines input) with
  | error e => simp only [hph]
  | ok pr =>
    obtain ⟨⟨f1, f2⟩, rest⟩ := pr
    simp only [hph]
    cases hh : hunks rest with
    | error e => rfl
    | ok hs =>
      obtain ⟨hv1, hv2⟩ := patch_header_valid (splitLines_valid hv) hph
      unfold convert_cow_to_str
      rw [if_pos hv1, if_pos hv2]

/-- Witness for C9 at a concrete well-formed one-hunk patch. -/
theorem c9_parse_agreement_witness :
    Utf8Valid c9input = true ∧ parse c9input = parse_bytes c9input :=
  ⟨by decide, c9_parse_agreement c9input (by decide)⟩
